import Mathlib

/-!
Verification of the GF(256) polynomial engine and Reed-Solomon
error-correction constructors of the QR-code generator.

The polynomial layer (`Polynomial`, its term and polynomial operators, the
division engine `remainder`, and the Reed-Solomon constructors) is a direct
shallow embedding of `src/main.py`.  Python dictionaries mapping powers to
coefficients are embedded as association lists with dictionary update
semantics (`dictSet` / `dictGet?`); Python's arbitrary-precision integer
powers are embedded as `Int`, coefficients as `Nat`.  The `while` loop of
`remainder` is embedded as a fuel-indexed loop that additionally records by
which of the two exits (the degree condition of the `while` guard, or the
zero-polynomial `break`) it returned; exhausted fuel or a field-level
division failure yields `none`.

The field primitive `z256` is not part of the repository sources; following
the specification it is modelled as GF(256) in the standard QR-code
representation: addition is bitwise XOR, multiplication is the carry-less
(GF(2)-polynomial) product reduced modulo the fixed irreducible polynomial
x^8 + x^4 + x^3 + x^2 + 1, and division multiplies by the multiplicative
inverse, failing on a zero divisor.
-/

namespace QR

namespace z256

/-- Modelled from the spec: carry-less (GF(2)-polynomial) product of two
bytes, the first stage of `field_mul`.  Bit `k` of `b` contributes
`a <<< k`; contributions are combined with XOR. -/
def clmul (a b : Nat) : Nat :=
  ((b &&& 1) * a) ^^^
    ((((b >>> 1) &&& 1) * (a <<< 1)) ^^^
      ((((b >>> 2) &&& 1) * (a <<< 2)) ^^^
        ((((b >>> 3) &&& 1) * (a <<< 3)) ^^^
          ((((b >>> 4) &&& 1) * (a <<< 4)) ^^^
            ((((b >>> 5) &&& 1) * (a <<< 5)) ^^^
              ((((b >>> 6) &&& 1) * (a <<< 6)) ^^^
                (((b >>> 7) &&& 1) * (a <<< 7))))))))

/-- Modelled from the spec: one step of the reduction modulo the field's
irreducible polynomial x^8 + x^4 + x^3 + x^2 + 1 (285): if bit `i` of `p`
is set, XOR away `285 <<< (i - 8)`. -/
def reduceBit (i p : Nat) : Nat := p ^^^ (((p >>> i) &&& 1) * (285 <<< (i - 8)))

/-- Modelled from the spec: `field_mul` on GF(256) — the carry-less product
reduced modulo the irreducible degree-8 polynomial, clearing bits 14 down
to 8. -/
def mul (a b : Nat) : Nat :=
  reduceBit 8 (reduceBit 9 (reduceBit 10 (reduceBit 11
    (reduceBit 12 (reduceBit 13 (reduceBit 14 (clmul a b)))))))

/-- Modelled from the spec: `field_add` on GF(256) is bitwise XOR (and is
its own inverse, so it also serves as subtraction). -/
def add (a b : Nat) : Nat := a ^^^ b

/-- Modelled from the spec: the table of multiplicative inverses of GF(256),
packed as one natural number with the inverse of `b` in byte position `b`
(byte 0, for the non-invertible 0, is 0).  Its correctness with respect to
`mul` is proved in `inv_mul_self` below. -/
def invTable : Nat := 32000916223336477098880017421497194459048599495444887370902704627438326773163667120485409145042302968030119903994810961782046326875097404084445287512063507059347984135649528394340367555766484629498620817198131976643477507065635418620715467229162953987106121697677766263066141705392726955578049605242455201607207149740759068034029365943284598047645166640949325042564250831653905651881236695539887070716202511229626809656302338880512243749164550844713669510900602313665479272871892059150673577989050845964776783570930261930345898579320072644426519898235226456207402538436050221126681864430616967500440780787501520257280

/-- Modelled from the spec: multiplicative inverse lookup. -/
def inv (b : Nat) : Nat := (invTable >>> (8 * b)) &&& 255

/-- Modelled from the spec: `field_div` on GF(256) multiplies by the
multiplicative inverse and fails (or is undefined) when the divisor is 0;
the failure is modelled as `none`. -/
def div (a b : Nat) : Option Nat := if b = 0 then none else some (mul a (inv b))

/-- Modelled from the spec: `field_pow` is repeated GF(256)
multiplication. -/
def power (a : Nat) : Nat → Nat
  | 0 => 1
  | n + 1 => mul (power a n) a

/-- The term `bit k of n, shifted back to position k` of the binary
decomposition of `n`. -/
def bitTerm (n k : Nat) : Nat := ((n >>> k) &&& 1) <<< k

end z256

/-- Dictionary update `m[k] = v` on an association list: replaces the value
at the first occurrence of key `k`, or appends the new binding. -/
def dictSet : List (Int × Nat) → Int → Nat → List (Int × Nat)
  | [], k, v => [(k, v)]
  | e :: rest, k, v => if e.1 = k then (k, v) :: rest else e :: dictSet rest k v

/-- Dictionary lookup: value at the first occurrence of key `k`, if any. -/
def dictGet? : List (Int × Nat) → Int → Option Nat
  | [], _ => none
  | e :: rest, k => if e.1 = k then some e.2 else dictGet? rest k

/-- Keys of an association list. -/
def keys (m : List (Int × Nat)) : List Int := m.map Prod.fst

/-- The Polynomial class of `src/main.py`: a wrapper around the dictionary
mapping powers to Z_256 coefficients. -/
structure Polynomial where
  terms : List (Int × Nat)
deriving DecidableEq, Repr

/-- Embeds `divide_terms` (src/main.py:3): the single-term quotient; the
power is `power1 - power2` with no precondition check, and the coefficient
quotient comes from `z256.div`, whose failure propagates. -/
def divide_terms (coefficient1 : Nat) (power1 : Int) (coefficient2 : Nat) (power2 : Int) :
    Option Polynomial :=
  (z256.div coefficient1 coefficient2).map
    (fun newCoeff => Polynomial.mk (dictSet [] (power1 - power2) (z256.add 0 newCoeff)))

namespace Polynomial

/-- Embeds `Polynomial.get_terms` (src/main.py:127): a copy of the terms
dictionary (copying is the identity in a persistent embedding). -/
def get_terms (self : Polynomial) : List (Int × Nat) := self.terms

/-- Embeds `Polynomial.get_degree` (src/main.py:136): fold over the stored
entries keeping the largest power whose stored coefficient is non-zero,
starting from 0. -/
def get_degree (self : Polynomial) : Int :=
  self.terms.foldl (fun hp e => if e.1 > hp ∧ e.2 ≠ 0 then e.1 else hp) 0

/-- Embeds `Polynomial.get_coefficient` (src/main.py:151): the stored
coefficient at `power`, or 0 if the power is absent. -/
def get_coefficient (self : Polynomial) (power : Int) : Nat :=
  (dictGet? self.terms power).getD 0

/-- Embeds `Polynomial.__eq__` (src/main.py:80): every non-zero term of
each side must be stored with the same value on the other side. -/
def eq (self other : Polynomial) : Bool :=
  (other.get_terms.all fun e => e.2 == 0 || dictGet? self.terms e.1 == some e.2) &&
  (self.terms.all fun e => e.2 == 0 || dictGet? other.get_terms e.1 == some e.2)

/-- Embeds `Polynomial.add_term` (src/main.py:168): Z_256-add the new
coefficient to the existing one at `power` and store the result. -/
def add_term (self : Polynomial) (coefficient : Nat) (power : Int) : Polynomial :=
  Polynomial.mk (dictSet self.get_terms power (z256.add (self.get_coefficient power) coefficient))

/-- Embeds `Polynomial.subtract_term` (src/main.py:192): identical to
`add_term`, since addition and subtraction coincide in Z_256. -/
def subtract_term (self : Polynomial) (coefficient : Nat) (power : Int) : Polynomial :=
  Polynomial.mk (dictSet self.get_terms power (z256.add (self.get_coefficient power) coefficient))

/-- Embeds `Polynomial.multiply_by_term` (src/main.py:217): every stored
entry `(p, c)` becomes `(p + power, z256.mul c coefficient)` in a fresh
dictionary (the key map is injective, so insertion is a plain map). -/
def multiply_by_term (self : Polynomial) (coefficient : Nat) (power : Int) : Polynomial :=
  Polynomial.mk (self.get_terms.map (fun e => (e.1 + power, z256.mul e.2 coefficient)))

/-- Embeds `Polynomial.add_polynomial` (src/main.py:243): fold every stored
entry of `other` into a copy of `self` via `add_term`. -/
def add_polynomial (self other : Polynomial) : Polynomial :=
  other.get_terms.foldl (fun added e => added.add_term e.2 e.1) (Polynomial.mk self.get_terms)

/-- Embeds `Polynomial.subtract_polynomial` (src/main.py:262): same fold of
`add_term` calls as `add_polynomial` (Z_256 addition is subtraction). -/
def subtract_polynomial (self other : Polynomial) : Polynomial :=
  other.get_terms.foldl (fun subtracted e => subtracted.add_term e.2 e.1)
    (Polynomial.mk self.get_terms)

/-- Embeds `Polynomial.multiply_by_polynomial` (src/main.py:281): for each
stored term of `other`, multiply it into `self` with `multiply_by_term` and
accumulate the partial products with `add_polynomial`, starting from the
empty polynomial. -/
def multiply_by_polynomial (self other : Polynomial) : Polynomial :=
  other.get_terms.foldl (fun acc e => acc.add_polynomial (self.multiply_by_term e.2 e.1))
    (Polynomial.mk [])

end Polynomial

/-- Records which exit ended the `while` loop of `remainder`: the degree
condition of the loop guard failing, or the explicit zero-polynomial
`break`. -/
inductive ExitKind where
  | degreeCond : ExitKind
  | zeroBreak : ExitKind
deriving DecidableEq, Repr

/-- Embeds the `while` loop of `Polynomial.remainder` (src/main.py:328),
with explicit fuel: while the working polynomial's degree is at least the
denominator's (and at least 0), divide the leading terms, multiply the
divisor up, subtract, and stop early if the result equals the zero
polynomial `Polynomial({0: 0})`.  Returns the final working polynomial
together with the exit taken; `none` models a field-level division failure
or exhausted fuel. -/
def remainderLoop (denominator : Polynomial) (dDeg : Int) (dLc : Nat) :
    Nat → Polynomial → Int → Nat → Option (Polynomial × ExitKind)
  | 0, _, _, _ => none
  | fuel + 1, numerator, nDeg, nLc =>
      if nDeg ≥ dDeg ∧ nDeg ≥ 0 then
        match divide_terms nLc nDeg dLc dDeg with
        | none => none
        | some multiply_by =>
            let increased_divisor := denominator.multiply_by_polynomial multiply_by
            let numerator' := numerator.subtract_polynomial increased_divisor
            if numerator'.eq (Polynomial.mk [(0, 0)]) then
              some (numerator', ExitKind.zeroBreak)
            else
              remainderLoop denominator dDeg dLc fuel numerator'
                numerator'.get_degree (numerator'.get_coefficient numerator'.get_degree)
      else
        some (numerator, ExitKind.degreeCond)

/-- Embeds `Polynomial.remainder` (src/main.py:304) while keeping the
loop's exit kind: set up the working copy of the numerator and both
leading-term views, then run the loop (fuel `degree + 1` suffices, as
proved in `remainder_terminates`). -/
def Polynomial.remainderWithReason (self denominator : Polynomial) :
    Option (Polynomial × ExitKind) :=
  let numerator := Polynomial.mk self.get_terms
  remainderLoop denominator denominator.get_degree
    (denominator.get_coefficient denominator.get_degree)
    (numerator.get_degree.toNat + 1)
    numerator numerator.get_degree (numerator.get_coefficient numerator.get_degree)

/-- Embeds `Polynomial.remainder` (src/main.py:304): the remainder left in
the working polynomial when the loop exits. -/
def Polynomial.remainder (self denominator : Polynomial) : Option Polynomial :=
  (self.remainderWithReason denominator).map (fun r => r.1)

/-- Embeds `create_message_polynomial` (src/main.py:354): term
`message[i] * x^(n + k - i - 1)` for each index `i` of the message. -/
def create_message_polynomial (message : List Nat) (num_correction_bytes : Nat) : Polynomial :=
  (List.range message.length).foldl
    (fun poly idx =>
      poly.add_term (message.getD idx 0)
        ((message.length : Int) + num_correction_bytes - idx - 1))
    (Polynomial.mk [])

/-- Embeds `create_generator_polynomial` (src/main.py:378): starting from
`Polynomial({0: 1})`, multiply in `Polynomial({1: 1, 0: 2^idx})` for
`idx = 0 .. k-1` (the source reduces the power `% 256`). -/
def create_generator_polynomial (num_correction_bytes : Nat) : Polynomial :=
  (List.range num_correction_bytes).foldl
    (fun gen idx =>
      gen.multiply_by_polynomial (Polynomial.mk [(1, 1), (0, z256.power 2 idx % 256)]))
    (Polynomial.mk [(0, 1)])

/-- Embeds `reed_solomon_correction` (src/main.py:403): the remainder of
the message polynomial divided by the generator polynomial. -/
def reed_solomon_correction (encoded_data : List Nat) (num_correction_bytes : Nat) :
    Option Polynomial :=
  (create_message_polynomial encoded_data num_correction_bytes).remainder
    (create_generator_polynomial num_correction_bytes)

namespace Polynomial

/-- XOR of the values stored at key `x` (all of them, in case of duplicate
keys). -/
def keySum : List (Int × Nat) → Int → Nat
  | [], _ => 0
  | e :: rest, x => if e.1 = x then e.2 ^^^ keySum rest x else keySum rest x

/-- Convolution sum: the coefficient contribution of multiplying `p` by
each term of a list, used to describe `multiply_by_polynomial`. -/
def convSum (p : Polynomial) : List (Int × Nat) → Int → Nat
  | [], _ => 0
  | e :: rest, x => z256.mul (p.get_coefficient (x - e.1)) e.2 ^^^ convSum p rest x

end Polynomial

/-- Data-model invariant of valid polynomials: the dictionary has no
duplicate keys (as any Python dict), all powers are non-negative and all
coefficients are bytes. -/
def WF (p : Polynomial) : Prop :=
  (keys p.terms).Nodup ∧ ∀ e ∈ p.terms, 0 ≤ e.1 ∧ e.2 < 256

instance (p : Polynomial) : Decidable (WF p) :=
  decidable_of_iff ((keys p.terms).Nodup ∧ ∀ e ∈ p.terms, 0 ≤ e.1 ∧ e.2 < 256) Iff.rfl

/-- Reading of the specification for C5: the k error-correction bytes are the
remainder's coefficients at powers k-1 down to 0, read high-to-low. -/
def correctionBytes (rem : Polynomial) (k : Nat) : List Nat :=
  ((List.range k).reverse).map (fun (i : Nat) => rem.get_coefficient (i : Int))

/-- Definition following the spec's words for C8: the largest stored power
whose coefficient is non-zero, and 0 when every stored coefficient is zero
(including the empty polynomial). -/
def specLargestNonzeroPower (p : Polynomial) : Int :=
  ((p.terms.filter (fun e => e.2 != 0)).map Prod.fst).foldl max 0

/-- Definition following the spec's words for C9: the power-to-coefficient
mapping with zero-coefficient entries discarded. -/
def discardZeros (m : List (Int × Nat)) : List (Int × Nat) :=
  m.filter (fun e => e.2 != 0)

namespace z256

/-- Shift-right distributes over XOR. -/
theorem shiftRight_xor_distrib (x y i : Nat) :
    (x ^^^ y) >>> i = (x >>> i) ^^^ (y >>> i) := by
  apply Nat.eq_of_testBit_eq
  intro j
  simp [Nat.testBit_shiftRight, Nat.testBit_xor]

/-- Shift-left distributes over XOR. -/
theorem shiftLeft_xor_distrib (x y i : Nat) :
    (x ^^^ y) <<< i = (x <<< i) ^^^ (y <<< i) := by
  apply Nat.eq_of_testBit_eq
  intro j
  simp only [Nat.testBit_shiftLeft, Nat.testBit_xor]
  cases h : decide (j ≥ i) <;> simp

/-- Four-way XOR shuffle used to split term-wise sums. -/
theorem xor_mix (a b c d : Nat) :
    (a ^^^ b) ^^^ (c ^^^ d) = (a ^^^ c) ^^^ (b ^^^ d) := by
  apply Nat.eq_of_testBit_eq
  intro j
  simp only [Nat.testBit_xor]
  cases a.testBit j <;> cases b.testBit j <;> cases c.testBit j <;> cases d.testBit j <;> rfl

/-- Eight-way interleaved XOR shuffle. -/
theorem xor_interleave8 (a0 a1 a2 a3 a4 a5 a6 a7 b0 b1 b2 b3 b4 b5 b6 b7 : Nat) :
    (a0 ^^^ b0) ^^^ ((a1 ^^^ b1) ^^^ ((a2 ^^^ b2) ^^^ ((a3 ^^^ b3) ^^^ ((a4 ^^^ b4) ^^^
      ((a5 ^^^ b5) ^^^ ((a6 ^^^ b6) ^^^ (a7 ^^^ b7))))))) =
    (a0 ^^^ (a1 ^^^ (a2 ^^^ (a3 ^^^ (a4 ^^^ (a5 ^^^ (a6 ^^^ a7))))))) ^^^
      (b0 ^^^ (b1 ^^^ (b2 ^^^ (b3 ^^^ (b4 ^^^ (b5 ^^^ (b6 ^^^ b7))))))) := by
  rw [xor_mix a6 b6 a7 b7,
    xor_mix a5 b5 (a6 ^^^ a7) (b6 ^^^ b7),
    xor_mix a4 b4 (a5 ^^^ (a6 ^^^ a7)) (b5 ^^^ (b6 ^^^ b7)),
    xor_mix a3 b3 (a4 ^^^ (a5 ^^^ (a6 ^^^ a7))) (b4 ^^^ (b5 ^^^ (b6 ^^^ b7))),
    xor_mix a2 b2 (a3 ^^^ (a4 ^^^ (a5 ^^^ (a6 ^^^ a7)))) (b3 ^^^ (b4 ^^^ (b5 ^^^ (b6 ^^^ b7)))),
    xor_mix a1 b1 (a2 ^^^ (a3 ^^^ (a4 ^^^ (a5 ^^^ (a6 ^^^ a7)))))
      (b2 ^^^ (b3 ^^^ (b4 ^^^ (b5 ^^^ (b6 ^^^ b7))))),
    xor_mix a0 b0 (a1 ^^^ (a2 ^^^ (a3 ^^^ (a4 ^^^ (a5 ^^^ (a6 ^^^ a7))))))
      (b1 ^^^ (b2 ^^^ (b3 ^^^ (b4 ^^^ (b5 ^^^ (b6 ^^^ b7))))))]

/-- A single-bit factor distributes over XOR. -/
theorem andone_mul_xor (n u v : Nat) :
    (n &&& 1) * (u ^^^ v) = ((n &&& 1) * u) ^^^ ((n &&& 1) * v) := by
  have h : n &&& 1 ≤ 1 := Nat.and_le_right
  rcases Nat.le_one_iff_eq_zero_or_eq_one.mp h with h0 | h0 <;> simp [h0]

/-- A XOR of single-bit extractions distributes as factors. -/
theorem xor_andone_mul (x y u : Nat) :
    ((x ^^^ y) &&& 1) * u = ((x &&& 1) * u) ^^^ ((y &&& 1) * u) := by
  rw [Nat.and_xor_distrib_right]
  have hx : x &&& 1 ≤ 1 := Nat.and_le_right
  have hy : y &&& 1 ≤ 1 := Nat.and_le_right
  rcases Nat.le_one_iff_eq_zero_or_eq_one.mp hx with h | h <;>
    rcases Nat.le_one_iff_eq_zero_or_eq_one.mp hy with g | g <;>
      simp [h, g, Nat.xor_self]

/-- One reduction step is XOR-linear. -/
theorem reduceBit_xor (i x y : Nat) :
    reduceBit i (x ^^^ y) = reduceBit i x ^^^ reduceBit i y := by
  unfold reduceBit
  rw [shiftRight_xor_distrib, xor_andone_mul]
  apply xor_mix

/-- The carry-less product is XOR-linear in its first argument. -/
theorem clmul_xor_left (x y b : Nat) :
    clmul (x ^^^ y) b = clmul x b ^^^ clmul y b := by
  unfold clmul
  simp only [shiftLeft_xor_distrib, andone_mul_xor]
  apply xor_interleave8

/-- The carry-less product is XOR-linear in its second argument. -/
theorem clmul_xor_right (a x y : Nat) :
    clmul a (x ^^^ y) = clmul a x ^^^ clmul a y := by
  unfold clmul
  simp only [shiftRight_xor_distrib, xor_andone_mul]
  apply xor_interleave8

/-- Field multiplication is XOR-linear in its first argument. -/
theorem mul_xor_left (x y b : Nat) :
    mul (x ^^^ y) b = mul x b ^^^ mul y b := by
  unfold mul
  rw [clmul_xor_left, reduceBit_xor, reduceBit_xor, reduceBit_xor, reduceBit_xor,
    reduceBit_xor, reduceBit_xor, reduceBit_xor]

/-- Field multiplication is XOR-linear in its second argument. -/
theorem mul_xor_right (a x y : Nat) :
    mul a (x ^^^ y) = mul a x ^^^ mul a y := by
  unfold mul
  rw [clmul_xor_right, reduceBit_xor, reduceBit_xor, reduceBit_xor, reduceBit_xor,
    reduceBit_xor, reduceBit_xor, reduceBit_xor]

/-- Multiplying 0 from the left gives 0. -/
theorem mul_zero_left (b : Nat) : mul 0 b = 0 := by
  simp [mul, clmul, reduceBit, Nat.zero_shiftLeft, Nat.zero_shiftRight, Nat.zero_and]

/-- Multiplying by 0 from the right gives 0. -/
theorem mul_zero_right (a : Nat) : mul a 0 = 0 := by
  simp [mul, clmul, reduceBit, Nat.zero_shiftLeft, Nat.zero_shiftRight, Nat.zero_and]

set_option maxRecDepth 8000 in
set_option maxHeartbeats 2000000 in
/-- Every byte is the XOR of its eight bit terms. -/
theorem bits_decomposition : ∀ n, n < 256 →
    n = bitTerm n 0 ^^^ (bitTerm n 1 ^^^ (bitTerm n 2 ^^^ (bitTerm n 3 ^^^
      (bitTerm n 4 ^^^ (bitTerm n 5 ^^^ (bitTerm n 6 ^^^ bitTerm n 7)))))) := by decide

/-- Inverse lookups are bytes. -/
theorem inv_lt (b : Nat) : inv b < 256 :=
  Nat.lt_succ_of_le Nat.and_le_right

set_option maxRecDepth 8000 in
set_option maxHeartbeats 8000000 in
/-- The packed table `invTable` indeed holds multiplicative inverses. -/
theorem inv_mul_self : ∀ b, b < 256 → b ≠ 0 →
    mul b (inv b) = 1 ∧ mul (inv b) b = 1 := by decide

set_option maxRecDepth 8000 in
set_option maxHeartbeats 64000000 in
/-- Basis case of leading-term cancellation: multiplying a power of two by
`inv d` and then by `d` recovers it. -/
theorem basis_cancel : ∀ d, d < 256 → d ≠ 0 → ∀ k, k < 8 →
    mul d (mul (1 <<< k) (inv d)) = 1 <<< k := by decide

set_option maxRecDepth 8000 in
set_option maxHeartbeats 64000000 in
/-- Basis case of the product bound: a byte times a power of two at most
2^7 stays a byte. -/
theorem basis_lt : ∀ a, a < 256 → ∀ k, k < 8 → mul a (1 <<< k) < 256 := by decide

set_option maxRecDepth 8000 in
set_option maxHeartbeats 4000000 in
/-- Multiplying a byte by 1 is the identity. -/
theorem mul_one_byte : ∀ a, a < 256 → mul a 1 = a := by decide

/-- Bit-term case of leading-term cancellation. -/
theorem bit_cancel (d : Nat) (hd : d < 256) (hdne : d ≠ 0) (m k : Nat) (hk : k < 8) :
    mul d (mul (bitTerm m k) (inv d)) = bitTerm m k := by
  have hb : (m >>> k) &&& 1 ≤ 1 := Nat.and_le_right
  rcases Nat.le_one_iff_eq_zero_or_eq_one.mp hb with h0 | h1
  · simp [bitTerm, h0, Nat.zero_shiftLeft, mul_zero_left, mul_zero_right]
  · rw [bitTerm, h1]
    exact basis_cancel d hd hdne k hk

/-- Bit-term case of the product bound. -/
theorem bit_lt (a : Nat) (ha : a < 256) (m k : Nat) (hk : k < 8) :
    mul a (bitTerm m k) < 256 := by
  have hb : (m >>> k) &&& 1 ≤ 1 := Nat.and_le_right
  rcases Nat.le_one_iff_eq_zero_or_eq_one.mp hb with h0 | h1
  · simp [bitTerm, h0, Nat.zero_shiftLeft, mul_zero_right]
  · rw [bitTerm, h1]
    exact basis_lt a ha k hk

/-- Leading-term cancellation of GF(256): dividing by `d` and multiplying
`d` back recovers any byte. -/
theorem mul_cancel (n d : Nat) (hn : n < 256) (hd : d < 256) (hdne : d ≠ 0) :
    mul d (mul n (inv d)) = n := by
  conv_lhs => rw [bits_decomposition n hn]
  simp only [mul_xor_left, mul_xor_right]
  rw [bit_cancel d hd hdne n 0 (by omega), bit_cancel d hd hdne n 1 (by omega),
    bit_cancel d hd hdne n 2 (by omega), bit_cancel d hd hdne n 3 (by omega),
    bit_cancel d hd hdne n 4 (by omega), bit_cancel d hd hdne n 5 (by omega),
    bit_cancel d hd hdne n 6 (by omega), bit_cancel d hd hdne n 7 (by omega)]
  exact (bits_decomposition n hn).symm

/-- Products of bytes are bytes. -/
theorem mul_lt (a b : Nat) (ha : a < 256) (hb : b < 256) : mul a b < 256 := by
  have h256 : (256 : Nat) = 2 ^ 8 := rfl
  conv_lhs => rw [bits_decomposition b hb]
  simp only [mul_xor_right]
  rw [h256]
  refine Nat.xor_lt_two_pow (bit_lt a ha b 0 (by omega)) ?_
  refine Nat.xor_lt_two_pow (bit_lt a ha b 1 (by omega)) ?_
  refine Nat.xor_lt_two_pow (bit_lt a ha b 2 (by omega)) ?_
  refine Nat.xor_lt_two_pow (bit_lt a ha b 3 (by omega)) ?_
  refine Nat.xor_lt_two_pow (bit_lt a ha b 4 (by omega)) ?_
  refine Nat.xor_lt_two_pow (bit_lt a ha b 5 (by omega)) ?_
  exact Nat.xor_lt_two_pow (bit_lt a ha b 6 (by omega)) (bit_lt a ha b 7 (by omega))

/-- XOR of bytes is a byte. -/
theorem add_lt (a b : Nat) (ha : a < 256) (hb : b < 256) : add a b < 256 :=
  Nat.xor_lt_two_pow (n := 8) ha hb

/-- Cancellation in the XOR form used by the remainder loop. -/
theorem xor_mul_cancel (n d : Nat) (hn : n < 256) (hd : d < 256) (hdne : d ≠ 0) :
    n ^^^ mul d (mul n (inv d)) = 0 := by
  rw [mul_cancel n d hn hd hdne, Nat.xor_self]

end z256

theorem dictGet?_dictSet_self (m : List (Int × Nat)) (k : Int) (v : Nat) :
    dictGet? (dictSet m k v) k = some v := by
  induction m with
  | nil => simp [dictSet, dictGet?]
  | cons e rest ih =>
      by_cases h : e.1 = k
      · simp [dictSet, dictGet?, h]
      · simp [dictSet, dictGet?, h, ih]

theorem dictGet?_dictSet_ne (m : List (Int × Nat)) (k : Int) (v : Nat) (x : Int)
    (h : x ≠ k) : dictGet? (dictSet m k v) x = dictGet? m x := by
  induction m with
  | nil => simp [dictSet, dictGet?, Ne.symm h]
  | cons e rest ih =>
      by_cases he : e.1 = k
      · subst he
        simp [dictSet, dictGet?, Ne.symm h]
      · simp only [dictSet, if_neg he]
        by_cases hx : e.1 = x
        · simp [dictGet?, hx]
        · simp [dictGet?, hx, ih]

theorem dictSet_dictSet (m : List (Int × Nat)) (k : Int) (a b : Nat) :
    dictSet (dictSet m k a) k b = dictSet m k b := by
  induction m with
  | nil => simp [dictSet]
  | cons e rest ih =>
      by_cases h : e.1 = k
      · simp [dictSet, h]
      · simp [dictSet, h, ih]

theorem mem_keys_dictSet (m : List (Int × Nat)) (k : Int) (v : Nat) (x : Int)
    (h : x ∈ keys (dictSet m k v)) : x ∈ keys m ∨ x = k := by
  induction m with
  | nil => simpa [dictSet, keys] using h
  | cons e rest ih =>
      by_cases he : e.1 = k
      · rcases (by simpa [dictSet, he, keys] using h : x = k ∨ x ∈ keys rest) with h1 | h1
        · exact Or.inr h1
        · exact Or.inl (by simp [keys]; exact Or.inr (by simpa [keys] using h1))
      · rcases (by simpa [dictSet, he, keys] using h : x = e.1 ∨ x ∈ keys (dictSet rest k v))
          with h1 | h1
        · exact Or.inl (by simp [keys, h1])
        · rcases ih (by simpa [keys] using h1) with h2 | h2
          · exact Or.inl (by simp [keys]; exact Or.inr (by simpa [keys] using h2))
          · exact Or.inr h2

theorem mem_dictSet_cases (m : List (Int × Nat)) (k : Int) (v : Nat) (e : Int × Nat)
    (h : e ∈ dictSet m k v) : e ∈ m ∨ e = (k, v) := by
  induction m with
  | nil => simpa [dictSet] using h
  | cons f rest ih =>
      by_cases hf : f.1 = k
      · rcases List.mem_cons.mp (by simpa [dictSet, hf] using h) with h1 | h1
        · exact Or.inr h1
        · exact Or.inl (List.mem_cons_of_mem _ h1)
      · rcases List.mem_cons.mp (by simpa [dictSet, hf] using h) with h1 | h1
        · exact Or.inl (List.mem_cons.mpr (Or.inl h1))
        · rcases ih h1 with h2 | h2
          · exact Or.inl (List.mem_cons_of_mem _ h2)
          · exact Or.inr h2

theorem nodup_dictSet (m : List (Int × Nat)) (k : Int) (v : Nat)
    (h : (keys m).Nodup) : (keys (dictSet m k v)).Nodup := by
  induction m with
  | nil => simp [dictSet, keys]
  | cons e rest ih =>
      simp only [keys, List.map_cons, List.nodup_cons] at h
      by_cases he : e.1 = k
      · subst he
        simpa [dictSet, keys, List.nodup_cons] using h
      · simp only [dictSet, if_neg he, keys, List.map_cons, List.nodup_cons]
        constructor
        · intro hmem
          rcases mem_keys_dictSet rest k v e.1 hmem with h1 | h1
          · exact h.1 (by simpa [keys] using h1)
          · exact he h1
        · exact ih h.2

theorem mem_of_dictGet? (m : List (Int × Nat)) (k : Int) (v : Nat)
    (h : dictGet? m k = some v) : (k, v) ∈ m := by
  induction m with
  | nil => simp [dictGet?] at h
  | cons e rest ih =>
      by_cases he : e.1 = k
      · simp only [dictGet?, if_pos he, Option.some_inj] at h
        exact List.mem_cons.mpr (Or.inl (by cases e; simp_all))
      · simp only [dictGet?, if_neg he] at h
        exact List.mem_cons_of_mem _ (ih h)

theorem dictGet?_of_mem_nodup (m : List (Int × Nat)) (k : Int) (v : Nat)
    (hnd : (keys m).Nodup) (h : (k, v) ∈ m) : dictGet? m k = some v := by
  induction m with
  | nil => simp at h
  | cons e rest ih =>
      simp only [keys, List.map_cons, List.nodup_cons] at hnd
      rcases List.mem_cons.mp h with h1 | h1
      · rw [← h1]
        simp [dictGet?]
      · have hne : e.1 ≠ k := by
          intro he
          exact hnd.1 (by simpa [keys, he] using List.mem_map_of_mem Prod.fst h1)
        simp only [dictGet?, if_neg hne]
        exact ih hnd.2 h1

theorem dictGet?_eq_none_of_not_mem (m : List (Int × Nat)) (k : Int)
    (h : k ∉ keys m) : dictGet? m k = none := by
  induction m with
  | nil => simp [dictGet?]
  | cons e rest ih =>
      simp only [keys, List.map_cons, List.mem_cons, not_or] at h
      have hne : e.1 ≠ k := fun he => h.1 he.symm
      simp only [dictGet?, if_neg hne]
      exact ih h.2

namespace Polynomial

theorem mk_get_terms (p : Polynomial) : Polynomial.mk p.get_terms = p := rfl

theorem get_coefficient_lt (p : Polynomial) (hb : ∀ e ∈ p.terms, e.2 < 256) (x : Int) :
    p.get_coefficient x < 256 := by
  unfold get_coefficient
  cases h : dictGet? p.terms x with
  | none => simp
  | some v => simpa using hb _ (mem_of_dictGet? p.terms x v h)

theorem get_coefficient_add_term (p : Polynomial) (c : Nat) (w x : Int) :
    (p.add_term c w).get_coefficient x =
      if x = w then p.get_coefficient w ^^^ c else p.get_coefficient x := by
  unfold add_term get_coefficient get_terms z256.add
  by_cases h : x = w
  · subst h
    rw [dictGet?_dictSet_self]
    simp
  · rw [dictGet?_dictSet_ne _ _ _ _ h, if_neg h]

theorem keySum_of_not_mem (l : List (Int × Nat)) (x : Int) (h : x ∉ keys l) :
    keySum l x = 0 := by
  induction l with
  | nil => rfl
  | cons e rest ih =>
      simp only [keys, List.map_cons, List.mem_cons, not_or] at h
      have hne : e.1 ≠ x := fun he => h.1 he.symm
      simp only [keySum, if_neg hne]
      exact ih h.2

theorem keySum_eq_get (l : List (Int × Nat)) (x : Int) (hnd : (keys l).Nodup) :
    keySum l x = (dictGet? l x).getD 0 := by
  induction l with
  | nil => rfl
  | cons e rest ih =>
      simp only [keys, List.map_cons, List.nodup_cons] at hnd
      by_cases h : e.1 = x
      · subst h
        rw [keySum, if_pos rfl, dictGet?, if_pos rfl, Option.getD_some,
          keySum_of_not_mem rest e.1 hnd.1, Nat.xor_zero]
      · rw [keySum, if_neg h, dictGet?, if_neg h]
        exact ih hnd.2

theorem get_coefficient_addFold (l : List (Int × Nat)) :
    ∀ (a : Polynomial) (x : Int),
      (l.foldl (fun acc e => acc.add_term e.2 e.1) a).get_coefficient x =
        a.get_coefficient x ^^^ keySum l x := by
  induction l with
  | nil => intro a x; simp [keySum]
  | cons e rest ih =>
      intro a x
      rw [List.foldl_cons, ih, get_coefficient_add_term]
      by_cases h : x = e.1
      · rw [if_pos h, keySum, if_pos h.symm, h, Nat.xor_assoc]
      · rw [if_neg h, keySum, if_neg (fun hh => h hh.symm)]

theorem get_coefficient_add_polynomial (p q : Polynomial) (x : Int)
    (hq : (keys q.terms).Nodup) :
    (p.add_polynomial q).get_coefficient x =
      p.get_coefficient x ^^^ q.get_coefficient x := by
  unfold add_polynomial
  rw [get_coefficient_addFold, mk_get_terms, get_terms,
    keySum_eq_get q.terms x hq]
  rfl

theorem subtract_polynomial_eq_add (p q : Polynomial) :
    p.subtract_polynomial q = p.add_polynomial q := rfl

theorem subtract_term_eq_add (p : Polynomial) (c : Nat) (w : Int) :
    p.subtract_term c w = p.add_term c w := rfl

theorem dictGet?_map_shift (s : Int) (c : Nat) (x : Int) :
    ∀ l : List (Int × Nat),
      (dictGet? (l.map fun e => (e.1 + s, z256.mul e.2 c)) x).getD 0 =
        z256.mul ((dictGet? l (x - s)).getD 0) c := by
  intro l
  induction l with
  | nil => simp [dictGet?, z256.mul_zero_left]
  | cons e rest ih =>
      by_cases h : e.1 + s = x
      · have h2 : e.1 = x - s := by omega
        simp [dictGet?, h, h2]
      · have h2 : e.1 ≠ x - s := by omega
        simpa [dictGet?, h, h2] using ih

theorem get_coefficient_multiply_by_term (p : Polynomial) (c : Nat) (s x : Int) :
    (p.multiply_by_term c s).get_coefficient x =
      z256.mul (p.get_coefficient (x - s)) c := by
  unfold multiply_by_term get_coefficient get_terms
  exact dictGet?_map_shift s c x p.terms

theorem keys_multiply_by_term (p : Polynomial) (c : Nat) (s : Int) :
    keys (p.multiply_by_term c s).terms = (keys p.terms).map (· + s) := by
  unfold multiply_by_term get_terms
  simp [keys, List.map_map, Function.comp]

theorem nodup_multiply_by_term (p : Polynomial) (c : Nat) (s : Int)
    (h : (keys p.terms).Nodup) : (keys (p.multiply_by_term c s).terms).Nodup := by
  rw [keys_multiply_by_term]
  exact h.map (fun a b => by omega)

theorem get_coefficient_mbpFold (p : Polynomial) (hp : (keys p.terms).Nodup)
    (l : List (Int × Nat)) :
    ∀ (acc : Polynomial) (x : Int),
      ((l.foldl (fun acc e => acc.add_polynomial (p.multiply_by_term e.2 e.1)) acc).get_coefficient x) =
        acc.get_coefficient x ^^^ convSum p l x := by
  induction l with
  | nil => intro acc x; simp [convSum]
  | cons e rest ih =>
      intro acc x
      rw [List.foldl_cons, ih, get_coefficient_add_polynomial _ _ _
        (nodup_multiply_by_term p e.2 e.1 hp), get_coefficient_multiply_by_term,
        convSum, Nat.xor_assoc]

theorem get_coefficient_multiply_by_polynomial (p q : Polynomial)
    (hp : (keys p.terms).Nodup) (x : Int) :
    (p.multiply_by_polynomial q).get_coefficient x = convSum p q.terms x := by
  unfold multiply_by_polynomial
  rw [get_terms, get_coefficient_mbpFold p hp q.terms (Polynomial.mk []) x]
  simp [get_coefficient, dictGet?]

end Polynomial

theorem degFold_ge (l : List (Int × Nat)) :
    ∀ acc : Int, acc ≤ l.foldl (fun hp e => if e.1 > hp ∧ e.2 ≠ 0 then e.1 else hp) acc := by
  induction l with
  | nil => intro acc; simp
  | cons e rest ih =>
      intro acc
      rw [List.foldl_cons]
      refine le_trans ?_ (ih _)
      by_cases h : e.1 > acc ∧ e.2 ≠ 0
      · rw [if_pos h]; exact le_of_lt h.1
      · rw [if_neg h]

theorem degFold_le (l : List (Int × Nat)) :
    ∀ acc D : Int, acc ≤ D → (∀ e ∈ l, e.2 ≠ 0 → e.1 ≤ D) →
      l.foldl (fun hp e => if e.1 > hp ∧ e.2 ≠ 0 then e.1 else hp) acc ≤ D := by
  induction l with
  | nil => intro acc D h _; simpa using h
  | cons e rest ih =>
      intro acc D hacc hall
      rw [List.foldl_cons]
      refine ih _ D ?_ (fun x hx => hall x (List.mem_cons_of_mem _ hx))
      by_cases h : e.1 > acc ∧ e.2 ≠ 0
      · rw [if_pos h]; exact hall e (List.mem_cons_self _ _) h.2
      · rw [if_neg h]; exact hacc

theorem degFold_mem (l : List (Int × Nat)) :
    ∀ acc : Int, l.foldl (fun hp e => if e.1 > hp ∧ e.2 ≠ 0 then e.1 else hp) acc = acc ∨
      ∃ c, (l.foldl (fun hp e => if e.1 > hp ∧ e.2 ≠ 0 then e.1 else hp) acc, c) ∈ l ∧ c ≠ 0 := by
  induction l with
  | nil => intro acc; left; rfl
  | cons e rest ih =>
      intro acc
      rw [List.foldl_cons]
      rcases ih (if e.1 > acc ∧ e.2 ≠ 0 then e.1 else acc) with h | h
      · by_cases hc : e.1 > acc ∧ e.2 ≠ 0
        · right
          refine ⟨e.2, ?_, hc.2⟩
          rw [h, if_pos hc]
          exact List.mem_cons_self _ _
        · left
          rw [h, if_neg hc]
      · right
        obtain ⟨c, hmem, hc⟩ := h
        exact ⟨c, List.mem_cons_of_mem _ hmem, hc⟩

theorem le_degFold_of_mem (l : List (Int × Nat)) :
    ∀ (acc : Int) (w : Int) (c : Nat), (w, c) ∈ l → c ≠ 0 →
      w ≤ l.foldl (fun hp e => if e.1 > hp ∧ e.2 ≠ 0 then e.1 else hp) acc := by
  induction l with
  | nil => intro acc w c h _; simp at h
  | cons e rest ih =>
      intro acc w c hmem hc
      rw [List.foldl_cons]
      rcases List.mem_cons.mp hmem with h | h
      · subst h
        refine le_trans ?_ (degFold_ge rest _)
        show w ≤ if w > acc ∧ c ≠ 0 then w else acc
        by_cases hcc : w > acc ∧ c ≠ 0
        · rw [if_pos hcc]
        · rw [if_neg hcc]
          have hna : ¬ w > acc := fun hlt => hcc ⟨hlt, hc⟩
          omega
      · exact ih _ w c h hc

namespace Polynomial

theorem degree_nonneg (p : Polynomial) : 0 ≤ p.get_degree :=
  degFold_ge p.terms 0

theorem le_degree_of_mem (p : Polynomial) (w : Int) (c : Nat)
    (h : (w, c) ∈ p.terms) (hc : c ≠ 0) : w ≤ p.get_degree :=
  le_degFold_of_mem p.terms 0 w c h hc

theorem degree_le (p : Polynomial) (D : Int) (hD : 0 ≤ D)
    (h : ∀ e ∈ p.terms, e.2 ≠ 0 → e.1 ≤ D) : p.get_degree ≤ D :=
  degFold_le p.terms 0 D hD h

theorem degree_mem (p : Polynomial) :
    p.get_degree = 0 ∨ ∃ c, (p.get_degree, c) ∈ p.terms ∧ c ≠ 0 :=
  degFold_mem p.terms 0

theorem dictGet?_eq_some_coef (p : Polynomial) (x : Int)
    (h : p.get_coefficient x ≠ 0) : dictGet? p.terms x = some (p.get_coefficient x) := by
  unfold get_coefficient at h ⊢
  cases hg : dictGet? p.terms x with
  | none => rw [hg] at h; simp at h
  | some v => simp

theorem coef_eq_zero_of_degree_lt (p : Polynomial) (x : Int)
    (h : p.get_degree < x) : p.get_coefficient x = 0 := by
  by_contra hc
  have hs := dictGet?_eq_some_coef p x hc
  have hm := mem_of_dictGet? p.terms x _ hs
  have := le_degree_of_mem p x _ hm hc
  omega

theorem lead_coef_ne_zero (p : Polynomial) (hnd : (keys p.terms).Nodup)
    (hpos : ∀ e ∈ p.terms, 0 ≤ e.1) (w : Int) (c : Nat)
    (hm : (w, c) ∈ p.terms) (hc : c ≠ 0) :
    p.get_coefficient p.get_degree ≠ 0 := by
  rcases degree_mem p with h0 | ⟨c2, hm2, hc2⟩
  · have hw0 : w = 0 := by
      have h1 := le_degree_of_mem p w c hm hc
      have h2 := hpos (w, c) hm
      omega
    rw [h0]
    rw [hw0] at hm
    unfold get_coefficient
    rw [dictGet?_of_mem_nodup p.terms 0 c hnd hm]
    simpa using hc
  · unfold get_coefficient
    rw [dictGet?_of_mem_nodup p.terms _ _ hnd hm2]
    simpa using hc2

theorem degree_eq_zero_of_all_zero (p : Polynomial)
    (h : ∀ e ∈ p.terms, e.2 = 0) : p.get_degree = 0 := by
  rcases degree_mem p with h0 | ⟨c, hm, hc⟩
  · exact h0
  · exact absurd (h _ hm) hc

end Polynomial

theorem WF_empty : WF (Polynomial.mk []) := by
  constructor
  · simp [keys]
  · intro e he; simp at he

theorem WF_add_term (p : Polynomial) (c : Nat) (w : Int)
    (hp : WF p) (hc : c < 256) (hw : 0 ≤ w) : WF (p.add_term c w) := by
  constructor
  · exact nodup_dictSet _ _ _ hp.1
  · intro e he
    rcases mem_dictSet_cases p.get_terms w _ e he with h | h
    · exact hp.2 e h
    · rw [h]
      refine ⟨hw, ?_⟩
      exact z256.add_lt _ _ (p.get_coefficient_lt (fun x hx => (hp.2 x hx).2) w) hc

theorem WF_addFold (l : List (Int × Nat)) :
    ∀ a : Polynomial, WF a → (∀ e ∈ l, 0 ≤ e.1 ∧ e.2 < 256) →
      WF (l.foldl (fun acc e => acc.add_term e.2 e.1) a) := by
  induction l with
  | nil => intro a ha _; exact ha
  | cons e rest ih =>
      intro a ha hl
      rw [List.foldl_cons]
      have he := hl e (List.mem_cons_self _ _)
      exact ih _ (WF_add_term a e.2 e.1 ha he.2 he.1)
        (fun x hx => hl x (List.mem_cons_of_mem _ hx))

theorem WF_add_polynomial (p q : Polynomial) (hp : WF p)
    (hq : ∀ e ∈ q.terms, 0 ≤ e.1 ∧ e.2 < 256) : WF (p.add_polynomial q) :=
  WF_addFold q.terms p hp hq

theorem WF_multiply_by_term (p : Polynomial) (c : Nat) (s : Int)
    (hp : WF p) (hc : c < 256) (hs : 0 ≤ s) : WF (p.multiply_by_term c s) := by
  constructor
  · exact p.nodup_multiply_by_term c s hp.1
  · intro e he
    unfold Polynomial.multiply_by_term Polynomial.get_terms at he
    simp only [List.mem_map] at he
    obtain ⟨x, hx, hxe⟩ := he
    rw [← hxe]
    have := hp.2 x hx
    exact ⟨by simp; omega, z256.mul_lt _ _ this.2 hc⟩

theorem WF_mbpFold (p : Polynomial) (hp : WF p) (l : List (Int × Nat)) :
    ∀ acc : Polynomial, WF acc → (∀ e ∈ l, 0 ≤ e.1 ∧ e.2 < 256) →
      WF (l.foldl (fun acc e => acc.add_polynomial (p.multiply_by_term e.2 e.1)) acc) := by
  induction l with
  | nil => intro acc hacc _; exact hacc
  | cons e rest ih =>
      intro acc hacc hl
      rw [List.foldl_cons]
      have he := hl e (List.mem_cons_self _ _)
      refine ih _ ?_ (fun x hx => hl x (List.mem_cons_of_mem _ hx))
      exact WF_add_polynomial acc _ hacc
        (fun x hx => (WF_multiply_by_term p e.2 e.1 hp he.2 he.1).2 x hx)

theorem WF_multiply_by_polynomial (p q : Polynomial) (hp : WF p)
    (hq : ∀ e ∈ q.terms, 0 ≤ e.1 ∧ e.2 < 256) : WF (p.multiply_by_polynomial q) :=
  WF_mbpFold p hp q.terms (Polynomial.mk []) WF_empty hq

namespace Polynomial

theorem coef_of_dictGet? (p : Polynomial) (x : Int) (v : Nat)
    (h : dictGet? p.terms x = some v) : p.get_coefficient x = v := by
  unfold get_coefficient
  rw [h]
  rfl

theorem eq_eq_true_iff (p q : Polynomial) :
    p.eq q = true ↔
      (∀ e ∈ q.terms, e.2 ≠ 0 → dictGet? p.terms e.1 = some e.2) ∧
      (∀ e ∈ p.terms, e.2 ≠ 0 → dictGet? q.terms e.1 = some e.2) := by
  unfold Polynomial.eq Polynomial.get_terms
  simp only [Bool.and_eq_true, List.all_eq_true, Bool.or_eq_true, beq_iff_eq]
  constructor
  · rintro ⟨h1, h2⟩
    exact ⟨fun e he hne => ((h1 e he).resolve_left hne),
      fun e he hne => ((h2 e he).resolve_left hne)⟩
  · rintro ⟨h1, h2⟩
    exact ⟨fun e he => or_iff_not_imp_left.mpr (h1 e he),
      fun e he => or_iff_not_imp_left.mpr (h2 e he)⟩

theorem eq_iff_coef_eq (p q : Polynomial)
    (hp : (keys p.terms).Nodup) (hq : (keys q.terms).Nodup) :
    p.eq q = true ↔ ∀ x, p.get_coefficient x = q.get_coefficient x := by
  rw [eq_eq_true_iff]
  constructor
  · rintro ⟨h1, h2⟩ x
    by_cases hpz : p.get_coefficient x = 0
    · by_cases hqz : q.get_coefficient x = 0
      · rw [hpz, hqz]
      · have hs := dictGet?_eq_some_coef q x hqz
        have hm := mem_of_dictGet? q.terms x _ hs
        have h3 := h1 (x, q.get_coefficient x) hm hqz
        have := coef_of_dictGet? p x _ h3
        rw [hpz] at this
        exact absurd this.symm hqz
    · have hs := dictGet?_eq_some_coef p x hpz
      have hm := mem_of_dictGet? p.terms x _ hs
      have h3 := h2 (x, p.get_coefficient x) hm hpz
      exact (coef_of_dictGet? q x _ h3).symm
  · intro h
    constructor
    · intro e he hne
      have hqc : q.get_coefficient e.1 = e.2 :=
        coef_of_dictGet? q e.1 e.2 (dictGet?_of_mem_nodup q.terms e.1 e.2 hq he)
      have hpc : p.get_coefficient e.1 = e.2 := (h e.1).trans hqc
      have := dictGet?_eq_some_coef p e.1 (by rw [hpc]; exact hne)
      rw [hpc] at this
      exact this
    · intro e he hne
      have hpc : p.get_coefficient e.1 = e.2 :=
        coef_of_dictGet? p e.1 e.2 (dictGet?_of_mem_nodup p.terms e.1 e.2 hp he)
      have hqc : q.get_coefficient e.1 = e.2 := ((h e.1).symm.trans hpc)
      have := dictGet?_eq_some_coef q e.1 (by rw [hqc]; exact hne)
      rw [hqc] at this
      exact this

theorem eq_zero_iff (p : Polynomial) :
    p.eq (Polynomial.mk [(0, 0)]) = true ↔ ∀ e ∈ p.terms, e.2 = 0 := by
  rw [eq_eq_true_iff]
  constructor
  · rintro ⟨h1, h2⟩ e he
    by_contra hne
    have h3 := h2 e he hne
    by_cases h0 : (0 : Int) = e.1
    · rw [show (Polynomial.mk [((0 : Int), (0 : Nat))]).terms = [(0, 0)] from rfl] at h3
      simp [dictGet?, if_pos h0] at h3
      exact hne h3.symm
    · rw [show (Polynomial.mk [((0 : Int), (0 : Nat))]).terms = [(0, 0)] from rfl] at h3
      simp [dictGet?, if_neg h0] at h3
  · intro h
    constructor
    · intro e he hne
      have : e = ((0 : Int), (0 : Nat)) := by simpa using he
      rw [this] at hne
      simp at hne
    · intro e he hne
      exact absurd (h e he) hne

theorem coef_zero_of_all_zero (p : Polynomial) (h : ∀ e ∈ p.terms, e.2 = 0) (x : Int) :
    p.get_coefficient x = 0 := by
  unfold get_coefficient
  cases hg : dictGet? p.terms x with
  | none => rfl
  | some v => simpa using h _ (mem_of_dictGet? p.terms x v hg)

theorem nodup_addFold (l : List (Int × Nat)) :
    ∀ a : Polynomial, (keys a.terms).Nodup →
      (keys (l.foldl (fun acc e => acc.add_term e.2 e.1) a).terms).Nodup := by
  induction l with
  | nil => intro a ha; exact ha
  | cons e rest ih =>
      intro a ha
      rw [List.foldl_cons]
      exact ih _ (nodup_dictSet _ _ _ ha)

theorem nodup_add_polynomial (p q : Polynomial) (hp : (keys p.terms).Nodup) :
    (keys (p.add_polynomial q).terms).Nodup :=
  nodup_addFold q.terms p hp

theorem nodup_mbpFold (p : Polynomial) (l : List (Int × Nat)) :
    ∀ acc : Polynomial, (keys acc.terms).Nodup →
      (keys (l.foldl (fun acc e => acc.add_polynomial (p.multiply_by_term e.2 e.1)) acc).terms).Nodup := by
  induction l with
  | nil => intro acc h; exact h
  | cons e rest ih =>
      intro acc h
      rw [List.foldl_cons]
      exact ih _ (nodup_add_polynomial _ _ h)

theorem nodup_multiply_by_polynomial (p q : Polynomial) :
    (keys (p.multiply_by_polynomial q).terms).Nodup :=
  nodup_mbpFold p q.terms (Polynomial.mk []) (by simp [keys])

end Polynomial

theorem divide_terms_eq_some (c1 : Nat) (p1 : Int) (c2 : Nat) (p2 : Int) (h : c2 ≠ 0) :
    divide_terms c1 p1 c2 p2 =
      some (Polynomial.mk [(p1 - p2, 0 ^^^ z256.mul c1 (z256.inv c2))]) := by
  unfold divide_terms z256.div
  rw [if_neg h]
  rfl

theorem divide_terms_zero (c1 : Nat) (p1 p2 : Int) : divide_terms c1 p1 0 p2 = none := rfl

theorem remainderLoop_zero (denom : Polynomial) (dDeg : Int) (dLc : Nat)
    (num : Polynomial) (nDeg : Int) (nLc : Nat) :
    remainderLoop denom dDeg dLc 0 num nDeg nLc = none := rfl

theorem remainderLoop_exit (denom : Polynomial) (dDeg : Int) (dLc : Nat) (fuel : Nat)
    (num : Polynomial) (nDeg : Int) (nLc : Nat) (hcond : ¬(nDeg ≥ dDeg ∧ nDeg ≥ 0)) :
    remainderLoop denom dDeg dLc (fuel + 1) num nDeg nLc =
      some (num, ExitKind.degreeCond) := by
  rw [remainderLoop, if_neg hcond]

theorem remainderLoop_div_fail (denom : Polynomial) (dDeg : Int) (dLc : Nat) (fuel : Nat)
    (num : Polynomial) (nDeg : Int) (nLc : Nat) (hcond : nDeg ≥ dDeg ∧ nDeg ≥ 0)
    (hdt : divide_terms nLc nDeg dLc dDeg = none) :
    remainderLoop denom dDeg dLc (fuel + 1) num nDeg nLc = none := by
  rw [remainderLoop, if_pos hcond, hdt]

theorem remainderLoop_step (denom : Polynomial) (dDeg : Int) (dLc : Nat) (fuel : Nat)
    (num : Polynomial) (nDeg : Int) (nLc : Nat) (mb : Polynomial)
    (hcond : nDeg ≥ dDeg ∧ nDeg ≥ 0)
    (hdt : divide_terms nLc nDeg dLc dDeg = some mb) :
    remainderLoop denom dDeg dLc (fuel + 1) num nDeg nLc =
      (if (num.subtract_polynomial (denom.multiply_by_polynomial mb)).eq
            (Polynomial.mk [(0, 0)]) then
        some (num.subtract_polynomial (denom.multiply_by_polynomial mb), ExitKind.zeroBreak)
      else
        remainderLoop denom dDeg dLc fuel
          (num.subtract_polynomial (denom.multiply_by_polynomial mb))
          (num.subtract_polynomial (denom.multiply_by_polynomial mb)).get_degree
          ((num.subtract_polynomial (denom.multiply_by_polynomial mb)).get_coefficient
            (num.subtract_polynomial (denom.multiply_by_polynomial mb)).get_degree)) := by
  rw [remainderLoop, if_pos hcond, hdt]

theorem subtract_inc_coef (num denom : Polynomial) (hdnd : (keys denom.terms).Nodup)
    (s : Int) (v : Nat) (x : Int) :
    (num.subtract_polynomial
      (denom.multiply_by_polynomial (Polynomial.mk [(s, v)]))).get_coefficient x =
      num.get_coefficient x ^^^ z256.mul (denom.get_coefficient (x - s)) v := by
  rw [Polynomial.subtract_polynomial_eq_add,
    Polynomial.get_coefficient_add_polynomial _ _ _
      (Polynomial.nodup_multiply_by_polynomial denom (Polynomial.mk [(s, v)])),
    Polynomial.get_coefficient_multiply_by_polynomial _ _ hdnd]
  simp [Polynomial.convSum]

theorem step_WF (num denom : Polynomial) (hn : WF num) (hd : WF denom)
    (hge : denom.get_degree ≤ num.get_degree) (v : Nat) (hv : v < 256) :
    WF (num.subtract_polynomial (denom.multiply_by_polynomial
      (Polynomial.mk [(num.get_degree - denom.get_degree, v)]))) := by
  rw [Polynomial.subtract_polynomial_eq_add]
  refine WF_add_polynomial num _ hn ?_
  refine fun e he => (WF_multiply_by_polynomial denom _ hd ?_).2 e he
  intro f hf
  have : f = (num.get_degree - denom.get_degree, v) := by simpa using hf
  rw [this]
  refine ⟨?_, hv⟩
  have := denom.degree_nonneg
  have := num.degree_nonneg
  simp
  omega

theorem step_coef_high (num denom : Polynomial) (hn : WF num) (hd : WF denom)
    (hge : denom.get_degree ≤ num.get_degree)
    (hdne : denom.get_coefficient denom.get_degree ≠ 0)
    (x : Int) (hx : num.get_degree ≤ x) :
    (num.subtract_polynomial (denom.multiply_by_polynomial
      (Polynomial.mk [(num.get_degree - denom.get_degree,
        0 ^^^ z256.mul (num.get_coefficient num.get_degree)
          (z256.inv (denom.get_coefficient denom.get_degree)))]))).get_coefficient x = 0 := by
  rw [subtract_inc_coef _ _ hd.1, Nat.zero_xor]
  rcases eq_or_lt_of_le hx with heq | hlt
  · have hxs : x - (num.get_degree - denom.get_degree) = denom.get_degree := by omega
    rw [hxs, ← heq]
    exact z256.xor_mul_cancel _ _
      (num.get_coefficient_lt (fun e he => (hn.2 e he).2) _)
      (denom.get_coefficient_lt (fun e he => (hd.2 e he).2) _) hdne
  · have h1 : num.get_degree < x := hlt
    have h2 : denom.get_degree < x - (num.get_degree - denom.get_degree) := by omega
    rw [num.coef_eq_zero_of_degree_lt x h1,
      denom.coef_eq_zero_of_degree_lt _ h2, z256.mul_zero_left, Nat.xor_zero]

theorem step_done_or_decrease (num denom : Polynomial) (hn : WF num) (hd : WF denom)
    (hge : denom.get_degree ≤ num.get_degree)
    (hdne : denom.get_coefficient denom.get_degree ≠ 0) :
    ((num.subtract_polynomial (denom.multiply_by_polynomial
      (Polynomial.mk [(num.get_degree - denom.get_degree,
        0 ^^^ z256.mul (num.get_coefficient num.get_degree)
          (z256.inv (denom.get_coefficient denom.get_degree)))]))).eq
        (Polynomial.mk [(0, 0)]) = true) ∨
    ((num.subtract_polynomial (denom.multiply_by_polynomial
      (Polynomial.mk [(num.get_degree - denom.get_degree,
        0 ^^^ z256.mul (num.get_coefficient num.get_degree)
          (z256.inv (denom.get_coefficient denom.get_degree)))]))).get_degree <
      num.get_degree) := by
  have hq : 0 ^^^ z256.mul (num.get_coefficient num.get_degree)
      (z256.inv (denom.get_coefficient denom.get_degree)) < 256 := by
    rw [Nat.zero_xor]
    exact z256.mul_lt _ _ (num.get_coefficient_lt (fun e he => (hn.2 e he).2) _)
      (z256.inv_lt _)
  have hWF := step_WF num denom hn hd hge _ hq
  set num' := num.subtract_polynomial (denom.multiply_by_polynomial
      (Polynomial.mk [(num.get_degree - denom.get_degree,
        0 ^^^ z256.mul (num.get_coefficient num.get_degree)
          (z256.inv (denom.get_coefficient denom.get_degree)))])) with hnum'
  by_cases hz : ∀ e ∈ num'.terms, e.2 = 0
  · left
    exact (Polynomial.eq_zero_iff num').mpr hz
  · right
    have hkey : ∀ f ∈ num'.terms, f.2 ≠ 0 → f.1 < num.get_degree := by
      intro f hf hcf
      by_contra hge2
      push_neg at hge2
      have hcoef : num'.get_coefficient f.1 = f.2 :=
        num'.coef_of_dictGet? f.1 f.2 (dictGet?_of_mem_nodup num'.terms f.1 f.2 hWF.1 hf)
      rw [hnum', step_coef_high num denom hn hd hge hdne f.1 hge2] at hcoef
      exact hcf hcoef.symm
    push_neg at hz
    obtain ⟨e, he, hce⟩ := hz
    have hpos : 0 < num.get_degree := lt_of_le_of_lt (hWF.2 e he).1 (hkey e he hce)
    have hle := Polynomial.degree_le num' (num.get_degree - 1) (by omega)
      (fun f hf hcf => by have := hkey f hf hcf; omega)
    omega

theorem divide_terms_some_inv (c1 : Nat) (p1 : Int) (c2 : Nat) (p2 : Int) (mb : Polynomial)
    (h : divide_terms c1 p1 c2 p2 = some mb) :
    c2 ≠ 0 ∧ mb = Polynomial.mk [(p1 - p2, 0 ^^^ z256.mul c1 (z256.inv c2))] := by
  by_cases hc : c2 = 0
  · rw [hc, divide_terms_zero] at h
    simp at h
  · rw [divide_terms_eq_some c1 p1 c2 p2 hc] at h
    exact ⟨hc, by simpa using h.symm⟩

theorem loop_degreeCond (denom : Polynomial) (dDeg : Int) (dLc : Nat) :
    ∀ (fuel : Nat) (num : Polynomial) (nDeg : Int) (nLc : Nat) (rem : Polynomial),
      nDeg = num.get_degree →
      remainderLoop denom dDeg dLc fuel num nDeg nLc = some (rem, ExitKind.degreeCond) →
      rem.get_degree < dDeg := by
  intro fuel
  induction fuel with
  | zero =>
      intro num nDeg nLc rem _ h
      rw [remainderLoop_zero] at h
      simp at h
  | succ n ih =>
      intro num nDeg nLc rem hinv h
      by_cases hcond : nDeg ≥ dDeg ∧ nDeg ≥ 0
      · cases hdt : divide_terms nLc nDeg dLc dDeg with
        | none =>
            rw [remainderLoop_div_fail _ _ _ _ _ _ _ hcond hdt] at h
            simp at h
        | some mb =>
            rw [remainderLoop_step _ _ _ _ _ _ _ _ hcond hdt] at h
            by_cases hz : (num.subtract_polynomial
                (denom.multiply_by_polynomial mb)).eq (Polynomial.mk [(0, 0)]) = true
            · rw [if_pos hz] at h
              simp at h
            · rw [if_neg hz] at h
              exact ih _ _ _ rem rfl h
      · rw [remainderLoop_exit _ _ _ _ _ _ _ hcond] at h
        simp only [Option.some_inj, Prod.mk.injEq] at h
        have h0 : (0 : Int) ≤ num.get_degree := num.degree_nonneg
        rw [← h.1]
        subst hinv
        omega

theorem loop_terminates (denom : Polynomial) (hd : WF denom)
    (hdne : denom.get_coefficient denom.get_degree ≠ 0) :
    ∀ (fuel : Nat) (num : Polynomial), WF num → num.get_degree.toNat < fuel →
      (remainderLoop denom denom.get_degree (denom.get_coefficient denom.get_degree)
        fuel num num.get_degree (num.get_coefficient num.get_degree)).isSome := by
  intro fuel
  induction fuel with
  | zero => intro num _ hf; omega
  | succ n ih =>
      intro num hn hf
      by_cases hcond : num.get_degree ≥ denom.get_degree ∧ num.get_degree ≥ 0
      · rw [remainderLoop_step _ _ _ _ _ _ _ _ hcond
          (divide_terms_eq_some _ _ _ _ hdne)]
        set num' := num.subtract_polynomial (denom.multiply_by_polynomial
          (Polynomial.mk [(num.get_degree - denom.get_degree,
            0 ^^^ z256.mul (num.get_coefficient num.get_degree)
              (z256.inv (denom.get_coefficient denom.get_degree)))])) with hnum'
        by_cases hz : num'.eq (Polynomial.mk [(0, 0)]) = true
        · rw [if_pos hz]
          rfl
        · rw [if_neg hz]
          rcases step_done_or_decrease num denom hn hd hcond.1 hdne with hdone | hdec
          · rw [← hnum'] at hdone
            exact absurd hdone hz
          · have hq : 0 ^^^ z256.mul (num.get_coefficient num.get_degree)
                (z256.inv (denom.get_coefficient denom.get_degree)) < 256 := by
              rw [Nat.zero_xor]
              exact z256.mul_lt _ _
                (num.get_coefficient_lt (fun e he => (hn.2 e he).2) _) (z256.inv_lt _)
            have hWF := step_WF num denom hn hd hcond.1 _ hq
            rw [← hnum'] at hWF hdec
            have h0 : (0 : Int) ≤ num'.get_degree := num'.degree_nonneg
            exact ih num' hWF (by omega)
      · rw [remainderLoop_exit _ _ _ _ _ _ _ hcond]
        rfl

theorem loop_WF (denom : Polynomial) (hd : WF denom) (dLc : Nat) :
    ∀ (fuel : Nat) (num rem : Polynomial) (ek : ExitKind), WF num →
      remainderLoop denom denom.get_degree dLc fuel num num.get_degree
        (num.get_coefficient num.get_degree) = some (rem, ek) → WF rem := by
  intro fuel
  induction fuel with
  | zero =>
      intro num rem ek _ h
      rw [remainderLoop_zero] at h
      simp at h
  | succ n ih =>
      intro num rem ek hn h
      by_cases hcond : num.get_degree ≥ denom.get_degree ∧ num.get_degree ≥ 0
      · cases hdt : divide_terms (num.get_coefficient num.get_degree) num.get_degree
            dLc denom.get_degree with
        | none =>
            rw [remainderLoop_div_fail _ _ _ _ _ _ _ hcond hdt] at h
            simp at h
        | some mb =>
            obtain ⟨hlc, hmb⟩ := divide_terms_some_inv _ _ _ _ _ hdt
            rw [remainderLoop_step _ _ _ _ _ _ _ _ hcond hdt] at h
            subst hmb
            have hq : 0 ^^^ z256.mul (num.get_coefficient num.get_degree)
                (z256.inv dLc) < 256 := by
              rw [Nat.zero_xor]
              exact z256.mul_lt _ _
                (num.get_coefficient_lt (fun e he => (hn.2 e he).2) _) (z256.inv_lt _)
            have hWF := step_WF num denom hn hd hcond.1 _ hq
            by_cases hz : (num.subtract_polynomial (denom.multiply_by_polynomial
                (Polynomial.mk [(num.get_degree - denom.get_degree,
                  0 ^^^ z256.mul (num.get_coefficient num.get_degree)
                    (z256.inv dLc))]))).eq (Polynomial.mk [(0, 0)]) = true
            · rw [if_pos hz] at h
              simp only [Option.some_inj, Prod.mk.injEq] at h
              rw [← h.1]
              exact hWF
            · rw [if_neg hz] at h
              exact ih _ rem ek hWF h
      · rw [remainderLoop_exit _ _ _ _ _ _ _ hcond] at h
        simp only [Option.some_inj, Prod.mk.injEq] at h
        rw [← h.1]
        exact hn

theorem remainderWithReason_eq_loop (p r : Polynomial) :
    p.remainderWithReason r =
      remainderLoop r r.get_degree (r.get_coefficient r.get_degree)
        (p.get_degree.toNat + 1) p p.get_degree (p.get_coefficient p.get_degree) := rfl

theorem remainder_eq_map (p r : Polynomial) :
    p.remainder r = (p.remainderWithReason r).map (fun x => x.1) := rfl

theorem remainderWithReason_degreeCond (p r rem : Polynomial)
    (h : p.remainderWithReason r = some (rem, ExitKind.degreeCond)) :
    rem.get_degree < r.get_degree := by
  rw [remainderWithReason_eq_loop] at h
  exact loop_degreeCond r r.get_degree _ _ p _ _ rem rfl h

theorem remainderWithReason_total (p r : Polynomial) (hp : WF p) (hr : WF r)
    (hne : ∃ e ∈ r.terms, e.2 ≠ 0) :
    ∃ rem ek, p.remainderWithReason r = some (rem, ek) := by
  obtain ⟨e, he, hce⟩ := hne
  have hdne : r.get_coefficient r.get_degree ≠ 0 :=
    r.lead_coef_ne_zero hr.1 (fun f hf => (hr.2 f hf).1) e.1 e.2 he hce
  have hsome := loop_terminates r hr hdne (p.get_degree.toNat + 1) p hp (by omega)
  obtain ⟨⟨rem, ek⟩, hrw⟩ := Option.isSome_iff_exists.mp hsome
  exact ⟨rem, ek, by rw [remainderWithReason_eq_loop]; exact hrw⟩

theorem remainder_WF (p r rem : Polynomial) (hp : WF p) (hr : WF r)
    (h : p.remainder r = some rem) : WF rem := by
  rw [remainder_eq_map, Option.map_eq_some'] at h
  obtain ⟨⟨rem2, ek⟩, hsome, hfst⟩ := h
  rw [remainderWithReason_eq_loop] at hsome
  have := loop_WF r hr _ _ p rem2 ek hp hsome
  simp only at hfst
  rwa [← hfst]

theorem gen_invariant : ∀ k : Nat, WF (create_generator_polynomial k) ∧
    (create_generator_polynomial k).get_coefficient k = 1 ∧
    ∀ x : Int, (k : Int) < x → (create_generator_polynomial k).get_coefficient x = 0 := by
  intro k
  induction k with
  | zero =>
      refine ⟨⟨by simp [create_generator_polynomial, keys], ?_⟩, by decide, ?_⟩
      · intro e he
        have : e = ((0 : Int), (1 : Nat)) := by
          simpa [create_generator_polynomial] using he
        rw [this]
        exact ⟨le_refl 0, by omega⟩
      · intro x hx
        show (dictGet? [((0 : Int), (1 : Nat))] x).getD 0 = 0
        rw [dictGet?, if_neg (by omega : ¬ (0 : Int) = x)]
        rfl
  | succ k ih =>
      obtain ⟨hWF, hlead, hhigh⟩ := ih
      have hgen : create_generator_polynomial (k + 1) =
          (create_generator_polynomial k).multiply_by_polynomial
            (Polynomial.mk [(1, 1), (0, z256.power 2 k % 256)]) := by
        unfold create_generator_polynomial
        rw [List.range_succ, List.foldl_append, List.foldl_cons, List.foldl_nil]
      have hc256 : z256.power 2 k % 256 < 256 := Nat.mod_lt _ (by omega)
      have hcoef : ∀ x : Int, (create_generator_polynomial (k + 1)).get_coefficient x =
          z256.mul ((create_generator_polynomial k).get_coefficient (x - 1)) 1 ^^^
            (z256.mul ((create_generator_polynomial k).get_coefficient (x - 0))
              (z256.power 2 k % 256) ^^^ 0) := by
        intro x
        rw [hgen, Polynomial.get_coefficient_multiply_by_polynomial _ _ hWF.1]
        rfl
      have hglt : ∀ x : Int, (create_generator_polynomial k).get_coefficient x < 256 :=
        fun x => (create_generator_polynomial k).get_coefficient_lt
          (fun e he => (hWF.2 e he).2) x
      refine ⟨?_, ?_, ?_⟩
      · rw [hgen]
        refine WF_multiply_by_polynomial _ _ hWF ?_
        intro e he
        rcases (by simpa using he :
            e = ((1 : Int), (1 : Nat)) ∨ e = ((0 : Int), z256.power 2 k % 256)) with h1 | h1 <;>
          · rw [h1]
            simp [hc256]
      · rw [hcoef]
        have e1 : ((k + 1 : Nat) : Int) - 1 = (k : Int) := by push_cast; ring
        have e2 : (k : Int) < ((k + 1 : Nat) : Int) - 0 := by push_cast; omega
        rw [e1, hlead, hhigh _ e2, z256.mul_zero_left, Nat.xor_zero, Nat.xor_zero]
        exact z256.mul_one_byte 1 (by omega)
      · intro x hx
        rw [hcoef]
        have e1 : (k : Int) < x - 1 := by push_cast at hx ⊢; omega
        have e2 : (k : Int) < x - 0 := by push_cast at hx ⊢; omega
        rw [hhigh _ e1, hhigh _ e2, z256.mul_zero_left, z256.mul_zero_left]
        rfl

theorem WF_msgFold (data : List Nat) (k : Nat) (hdata : ∀ b ∈ data, b < 256) :
    ∀ l : List Nat, (∀ i ∈ l, i < data.length) → ∀ acc : Polynomial, WF acc →
      WF (l.foldl (fun poly idx => poly.add_term (data.getD idx 0)
        ((data.length : Int) + k - idx - 1)) acc) := by
  intro l
  induction l with
  | nil => intro _ acc h; exact h
  | cons i rest ih =>
      intro hl acc hacc
      rw [List.foldl_cons]
      refine ih (fun j hj => hl j (List.mem_cons_of_mem _ hj)) _ ?_
      have hi := hl i (List.mem_cons_self _ _)
      refine WF_add_term _ _ _ hacc ?_ ?_
      · have hmem : data.getD i 0 ∈ data := by
          rw [List.getD_eq_getElem data 0 hi]
          exact List.getElem_mem hi
        exact hdata _ hmem
      · have hi2 : (i : Int) < (data.length : Int) := by exact_mod_cast hi
        omega

theorem WF_message (data : List Nat) (k : Nat) (hdata : ∀ b ∈ data, b < 256) :
    WF (create_message_polynomial data k) :=
  WF_msgFold data k hdata (List.range data.length)
    (fun i hi => by simpa using hi) (Polynomial.mk []) WF_empty

set_option maxRecDepth 8000 in
set_option maxHeartbeats 4000000 in
/-- C1: `reed_solomon_correction` applied to the message
[32, 91, 11, 120, 209, 114, 220, 77, 67, 64, 236, 17, 236, 17, 236, 17] with
k = 10 produces a result whose coefficients at powers 9 down to 0 are exactly
the reference error-correction bytes [196, 35, 39, 119, 235, 215, 231, 226,
93, 23]. -/
theorem C1_reed_solomon_reference_bytes :
    (reed_solomon_correction
        [32, 91, 11, 120, 209, 114, 220, 77, 67, 64, 236, 17, 236, 17, 236, 17] 10).map
      (fun rem => ([9, 8, 7, 6, 5, 4, 3, 2, 1, 0] : List Int).map rem.get_coefficient) =
      some [196, 35, 39, 119, 235, 215, 231, 226, 93, 23] := by decide

/-- C2: for polynomials `p` and `r` with `r` non-zero, whenever the
leading-term-elimination loop of `remainder(p, r)` terminates because the
working polynomial's degree fell below `r`'s degree (exit
`ExitKind.degreeCond`, rather than the zero-polynomial break), the returned
remainder has degree strictly below `degree(r)`. -/
theorem C2_degree_exit_bound (p r rem : Polynomial)
    (hr : ∃ e ∈ r.terms, e.2 ≠ 0)
    (h : p.remainderWithReason r = some (rem, ExitKind.degreeCond)) :
    rem.get_degree < r.get_degree :=
  remainderWithReason_degreeCond p r rem h

theorem C2_degree_exit_bound_witness :
    (Polynomial.mk [(0, 1)]).get_degree < (Polynomial.mk [(1, 1)]).get_degree :=
  C2_degree_exit_bound (Polynomial.mk [(0, 1)]) (Polynomial.mk [(1, 1)])
    (Polynomial.mk [(0, 1)]) (by decide) (by decide)

/-- C3: for every valid numerator polynomial and every valid non-zero
denominator polynomial, `remainder` terminates: the loop reaches the degree
condition or the zero-polynomial check (returning `some` exit) within the
available fuel, because each iteration cancels the leading term. -/
theorem C3_remainder_terminates (p r : Polynomial) (hp : WF p) (hr : WF r)
    (hne : ∃ e ∈ r.terms, e.2 ≠ 0) :
    ∃ rem ek, p.remainderWithReason r = some (rem, ek) :=
  remainderWithReason_total p r hp hr hne

theorem C3_remainder_terminates_witness :
    ∃ rem ek, (Polynomial.mk [(0, 1)]).remainderWithReason (Polynomial.mk [(0, 1)]) =
      some (rem, ek) :=
  C3_remainder_terminates (Polynomial.mk [(0, 1)]) (Polynomial.mk [(0, 1)])
    (by decide) (by decide) (by decide)

/-- C4: for every k ≥ 0, `create_generator_polynomial(k)` returns a polynomial
of degree exactly k whose coefficient at power k is 1. -/
theorem C4_generator_degree (k : Nat) :
    (create_generator_polynomial k).get_degree = (k : Int) ∧
    (create_generator_polynomial k).get_coefficient (k : Int) = 1 := by
  obtain ⟨hWF, hlead, hhigh⟩ := gen_invariant k
  refine ⟨le_antisymm ?_ ?_, hlead⟩
  · refine Polynomial.degree_le _ _ (by omega) ?_
    intro e he hce
    by_contra hgt
    push_neg at hgt
    have hc : (create_generator_polynomial k).get_coefficient e.1 = e.2 :=
      Polynomial.coef_of_dictGet? _ e.1 e.2
        (dictGet?_of_mem_nodup _ e.1 e.2 hWF.1 he)
    rw [hhigh e.1 hgt] at hc
    exact hce hc.symm
  · have hne : (create_generator_polynomial k).get_coefficient (k : Int) ≠ 0 := by
      rw [hlead]; omega
    have hs := Polynomial.dictGet?_eq_some_coef _ (k : Int) hne
    exact Polynomial.le_degree_of_mem _ _ _ (mem_of_dictGet? _ _ _ hs) hne

/-- C5 counterexample: `reed_solomon_correction` does not return an ordered
sequence of k integers; it returns a `Polynomial`, and at `data = [0]`,
`k = 1` the returned polynomial's stored power-to-coefficient mapping is
`[(1, 0)]` — its single stored power is 1, which is not the sequence of k = 1
error-correction bytes indexed by position 0. -/
theorem C5_counterexample :
    (reed_solomon_correction [0] 1).map (fun rem => rem.terms) = some [(1, 0)] ∧
      [((1 : Int), (0 : Nat))] ≠ [((0 : Int), (0 : Nat))] := by decide

/-- C5 as amended: `reed_solomon_correction` returns a `Polynomial` (not a
plain sequence); reading its coefficients at powers k-1 down to 0 yields an
ordered sequence of exactly k integers, each in [0, 255]. -/
theorem C5_correction_bytes_shape (data : List Nat) (k : Nat) (rem : Polynomial)
    (hdata : ∀ b ∈ data, b < 256)
    (h : reed_solomon_correction data k = some rem) :
    (correctionBytes rem k).length = k ∧ ∀ b ∈ correctionBytes rem k, b < 256 := by
  have hWFrem : WF rem :=
    remainder_WF _ _ rem (WF_message data k hdata) (gen_invariant k).1 h
  constructor
  · unfold correctionBytes
    simp only [List.length_map, List.length_reverse, List.length_range]
  · intro b hb
    simp only [correctionBytes, List.mem_map] at hb
    obtain ⟨i, _, hib⟩ := hb
    rw [← hib]
    exact rem.get_coefficient_lt (fun e he => (hWFrem.2 e he).2) _

theorem C5_correction_bytes_shape_witness :
    (correctionBytes (Polynomial.mk [(1, 0)]) 1).length = 1 ∧
      ∀ b ∈ correctionBytes (Polynomial.mk [(1, 0)]) 1, b < 256 :=
  C5_correction_bytes_shape [0] 1 (Polynomial.mk [(1, 0)]) (by decide) (by decide)

/-- C6 counterexample: `divide_terms` called with `power1 < power2` does not
fail: at coefficients 1, 1 and powers 0 < 1 it silently returns the term
1·x^(-1), a term with a negative power. -/
theorem C6_counterexample :
    divide_terms 1 0 1 1 = some (Polynomial.mk [(-1, 1)]) := by decide

/-- C6 as amended: `divide_terms` performs no precondition check — with
`power1 < power2` and a non-zero second coefficient it silently succeeds and
every term of the result has a negative power; and `remainder` with a
zero-polynomial denominator fails only through the field primitive's division
by zero (modelled as `none`), not through an explicit invalid-argument
check. -/
theorem C6_no_explicit_guards :
    (∀ (c1 : Nat) (p1 : Int) (c2 : Nat) (p2 : Int), p1 < p2 → c2 ≠ 0 →
      ∃ q, divide_terms c1 p1 c2 p2 = some q ∧ ∀ e ∈ q.terms, e.1 < 0) ∧
    (∀ p d : Polynomial, (∀ e ∈ d.terms, e.2 = 0) → p.remainder d = none) := by
  constructor
  · intro c1 p1 c2 p2 hlt hc2
    refine ⟨_, divide_terms_eq_some c1 p1 c2 p2 hc2, ?_⟩
    intro e he
    have he2 : e = (p1 - p2, 0 ^^^ z256.mul c1 (z256.inv c2)) := by simpa using he
    rw [he2]
    show p1 - p2 < 0
    omega
  · intro p d hz
    rw [remainder_eq_map, remainderWithReason_eq_loop]
    have hdeg : d.get_degree = 0 := d.degree_eq_zero_of_all_zero hz
    have hlc : d.get_coefficient d.get_degree = 0 := d.coef_zero_of_all_zero hz _
    have h0 : (0 : Int) ≤ p.get_degree := p.degree_nonneg
    rw [remainderLoop_div_fail _ _ _ _ _ _ _
      (by constructor <;> omega)
      (by rw [hlc]; exact divide_terms_zero _ _ _)]
    rfl

theorem C6_no_explicit_guards_witness :
    (∃ q, divide_terms 1 0 1 1 = some q ∧ ∀ e ∈ q.terms, e.1 < 0) ∧
      (Polynomial.mk [(0, 1)]).remainder (Polynomial.mk []) = none :=
  ⟨C6_no_explicit_guards.1 1 0 1 1 (by omega) (by omega),
    C6_no_explicit_guards.2 (Polynomial.mk [(0, 1)]) (Polynomial.mk [])
      (by intro e he; simp at he)⟩

/-- C7 counterexample: no term operator rejects an out-of-range coefficient.
With coefficient 300: `add_term`/`subtract_term` on the empty polynomial
silently succeed, storing 300 verbatim; `multiply_by_term` silently succeeds,
passing 300 to the field multiplication; `divide_terms` silently succeeds,
passing 300 to the field division. -/
theorem C7_counterexample :
    ((Polynomial.mk []).add_term 300 0).get_coefficient 0 = 300 ∧
    ((Polynomial.mk []).add_term 300 0).terms = [(0, 300)] ∧
    ((Polynomial.mk []).subtract_term 300 0).terms = [(0, 300)] ∧
    ((Polynomial.mk [(0, 1)]).multiply_by_term 300 0).terms = [(0, z256.mul 1 300)] ∧
    divide_terms 300 0 1 0 = some (Polynomial.mk [(0, z256.mul 300 (z256.inv 1))]) := by
  decide

/-- C7 as amended: no term operator validates its coefficient argument.
`add_term` and `subtract_term` are total and XOR any natural-number
coefficient into the stored one (an out-of-range coefficient added to an
empty polynomial is stored unchanged instead of being rejected);
`multiply_by_term` is total and passes any coefficient to the field
multiplication unchecked; `divide_terms` succeeds for any first coefficient
whenever the divisor coefficient is non-zero, passing it to the field
division unchecked. -/
theorem C7_no_coefficient_validation (p : Polynomial) (c : Nat) (w : Int) :
    (p.add_term c w).get_coefficient w = p.get_coefficient w ^^^ c ∧
    (p.subtract_term c w).get_coefficient w = p.get_coefficient w ^^^ c ∧
    ((Polynomial.mk []).add_term c w).get_coefficient w = c ∧
    (∀ x : Int, (p.multiply_by_term c w).get_coefficient x =
      z256.mul (p.get_coefficient (x - w)) c) ∧
    (∀ (c2 : Nat) (p2 : Int), c2 ≠ 0 → divide_terms c w c2 p2 =
      some (Polynomial.mk [(w - p2, 0 ^^^ z256.mul c (z256.inv c2))])) := by
  refine ⟨?_, ?_, ?_, ?_, ?_⟩
  · rw [Polynomial.get_coefficient_add_term, if_pos rfl]
  · rw [Polynomial.subtract_term_eq_add, Polynomial.get_coefficient_add_term, if_pos rfl]
  · rw [Polynomial.get_coefficient_add_term, if_pos rfl]
    show (dictGet? ([] : List (Int × Nat)) w).getD 0 ^^^ c = c
    rw [dictGet?]
    exact Nat.zero_xor c
  · exact fun x => Polynomial.get_coefficient_multiply_by_term p c w x
  · exact fun c2 p2 h => divide_terms_eq_some c w c2 p2 h

theorem C7_no_coefficient_validation_witness :
    ((Polynomial.mk [(0, 7)]).multiply_by_term 300 2).get_coefficient 2 =
      z256.mul ((Polynomial.mk [(0, 7)]).get_coefficient (2 - 2)) 300 ∧
    divide_terms 300 1 1 0 =
      some (Polynomial.mk [((1 : Int) - 0, 0 ^^^ z256.mul 300 (z256.inv 1))]) :=
  ⟨(C7_no_coefficient_validation (Polynomial.mk [(0, 7)]) 300 2).2.2.2.1 2,
    (C7_no_coefficient_validation (Polynomial.mk [(0, 7)]) 300 1).2.2.2.2 1 0 (by decide)⟩

/-- C8: `get_degree` returns the largest power whose stored coefficient is
non-zero, and 0 when all stored coefficients are zero (including the empty
polynomial), so the zero polynomial and a non-zero constant both have
degree 0. -/
theorem C8_degree_spec (p : Polynomial) :
    p.get_degree = specLargestNonzeroPower p := by
  unfold Polynomial.get_degree specLargestNonzeroPower
  suffices h : ∀ (l : List (Int × Nat)) (acc : Int),
      l.foldl (fun hp e => if e.1 > hp ∧ e.2 ≠ 0 then e.1 else hp) acc =
        ((l.filter (fun e => e.2 != 0)).map Prod.fst).foldl max acc by
    exact h p.terms 0
  intro l
  induction l with
  | nil => intro acc; rfl
  | cons e rest ih =>
      intro acc
      simp only [List.foldl_cons, List.filter_cons]
      by_cases hc : e.2 = 0
      · rw [if_neg (show ¬(e.1 > acc ∧ e.2 ≠ 0) by simp [hc]),
          if_neg (show ¬((e.2 != 0) = true) by simp [hc])]
        exact ih acc
      · rw [if_pos (show (e.2 != 0) = true by simpa using hc), List.map_cons, List.foldl_cons]
        have heq : (if e.1 > acc ∧ e.2 ≠ 0 then e.1 else acc) = max acc e.1 := by
          by_cases hlt : e.1 > acc
          · rw [if_pos ⟨hlt, hc⟩, max_eq_right (le_of_lt hlt)]
          · rw [if_neg (fun hh => hlt hh.1), max_eq_left (by omega)]
        rw [heq]
        exact ih _

theorem nodup_discardZeros (m : List (Int × Nat)) (h : (keys m).Nodup) :
    (keys (discardZeros m)).Nodup :=
  ((List.filter_sublist m).map Prod.fst).nodup h

theorem dictGet?_discardZeros_of_zero (m : List (Int × Nat)) (w : Int)
    (hnd : (keys m).Nodup) (h : (dictGet? m w).getD 0 = 0) :
    dictGet? (discardZeros m) w = none := by
  apply dictGet?_eq_none_of_not_mem
  intro hw
  obtain ⟨e, hmem, hfst⟩ := List.mem_map.mp hw
  have hf := List.mem_filter.mp hmem
  have hv : e.2 ≠ 0 := by simpa using hf.2
  have : dictGet? m w = some e.2 := by
    rw [← hfst]
    exact dictGet?_of_mem_nodup m e.1 e.2 hnd hf.1
  rw [this] at h
  exact hv (by simpa using h)

theorem dictGet?_discardZeros_of_ne (m : List (Int × Nat)) (w : Int) (v : Nat)
    (hnd : (keys m).Nodup) (h : dictGet? m w = some v) (hv : v ≠ 0) :
    dictGet? (discardZeros m) w = some v :=
  dictGet?_of_mem_nodup _ _ _ (nodup_discardZeros m hnd)
    (List.mem_filter.mpr ⟨mem_of_dictGet? m w v h, by simpa using hv⟩)

theorem dictGet?_discardZeros_some_inv (m : List (Int × Nat)) (w : Int) (v : Nat)
    (hnd : (keys m).Nodup) (h : dictGet? (discardZeros m) w = some v) :
    dictGet? m w = some v ∧ v ≠ 0 := by
  have hm := mem_of_dictGet? _ _ _ h
  have hf := List.mem_filter.mp hm
  exact ⟨dictGet?_of_mem_nodup m w v hnd hf.1, by simpa using hf.2⟩

/-- C9: `p.eq q` is true if and only if, after discarding zero-coefficient
entries from both, the power-to-coefficient mappings are identical; equality
is insensitive to whether zero coefficients are stored or absent. -/
theorem C9_eq_iff_discard_zeros (p q : Polynomial)
    (hp : (keys p.terms).Nodup) (hq : (keys q.terms).Nodup) :
    p.eq q = true ↔
      ∀ w : Int, dictGet? (discardZeros p.terms) w = dictGet? (discardZeros q.terms) w := by
  rw [Polynomial.eq_iff_coef_eq p q hp hq]
  constructor
  · intro h w
    by_cases hz : p.get_coefficient w = 0
    · rw [dictGet?_discardZeros_of_zero p.terms w hp hz,
        dictGet?_discardZeros_of_zero q.terms w hq
          (show q.get_coefficient w = 0 by rw [← h w]; exact hz)]
    · have hps := Polynomial.dictGet?_eq_some_coef p w hz
      have hqs := Polynomial.dictGet?_eq_some_coef q w (by rw [← h w]; exact hz)
      rw [dictGet?_discardZeros_of_ne p.terms w _ hp hps hz,
        dictGet?_discardZeros_of_ne q.terms w _ hq hqs (by rw [← h w]; exact hz), h w]
  · intro h x
    by_cases hz : p.get_coefficient x = 0
    · by_contra hne
      have hqz : q.get_coefficient x ≠ 0 := fun hh => hne (by rw [hz, hh])
      have hqs := Polynomial.dictGet?_eq_some_coef q x hqz
      have := dictGet?_discardZeros_of_ne q.terms x _ hq hqs hqz
      rw [← h x] at this
      have hinv := dictGet?_discardZeros_some_inv p.terms x _ hp this
      have : p.get_coefficient x = q.get_coefficient x :=
        Polynomial.coef_of_dictGet? p x _ hinv.1
      exact hne this
    · have hps := Polynomial.dictGet?_eq_some_coef p x hz
      have h1 := dictGet?_discardZeros_of_ne p.terms x _ hp hps hz
      rw [h x] at h1
      have hinv := dictGet?_discardZeros_some_inv q.terms x _ hq h1
      exact (Polynomial.coef_of_dictGet? q x _ hinv.1).symm

theorem C9_eq_iff_discard_zeros_witness :
    (Polynomial.mk [(1, 3), (0, 0)]).eq (Polynomial.mk [(1, 3)]) = true :=
  (C9_eq_iff_discard_zeros (Polynomial.mk [(1, 3), (0, 0)]) (Polynomial.mk [(1, 3)])
    (by decide) (by decide)).mpr (fun w => rfl)

/-- C10: for every valid polynomial, coefficient in [0, 255] and non-negative
power, adding the same term twice is the identity up to `eq`, and the same
round-trip holds for `add_term` followed by `subtract_term`. -/
theorem C10_add_term_involutive (p : Polynomial) (c : Nat) (w : Int)
    (hp : (keys p.terms).Nodup) (hc : c < 256) (hw : 0 ≤ w) :
    ((p.add_term c w).add_term c w).eq p = true ∧
    ((p.add_term c w).subtract_term c w).eq p = true := by
  have h1 : (p.add_term c w).get_coefficient w = p.get_coefficient w ^^^ c := by
    rw [Polynomial.get_coefficient_add_term, if_pos rfl]
  have h2 : (p.add_term c w).add_term c w = Polynomial.mk
      (dictSet (dictSet p.terms w (p.get_coefficient w ^^^ c)) w
        ((p.get_coefficient w ^^^ c) ^^^ c)) := by
    show Polynomial.mk (dictSet (p.add_term c w).get_terms w
        (z256.add ((p.add_term c w).get_coefficient w) c)) = _
    rw [h1]
    rfl
  have hmain : (Polynomial.mk (dictSet p.terms w (p.get_coefficient w))).eq p = true := by
    rw [Polynomial.eq_iff_coef_eq _ _ (nodup_dictSet _ _ _ hp) hp]
    intro x
    by_cases hx : x = w
    · subst hx
      show (dictGet? (dictSet p.terms x (p.get_coefficient x)) x).getD 0 = _
      rw [dictGet?_dictSet_self]
      rfl
    · show (dictGet? (dictSet p.terms w (p.get_coefficient w)) x).getD 0 = _
      rw [dictGet?_dictSet_ne _ _ _ _ hx]
      rfl
  constructor
  · rw [h2, Nat.xor_cancel_right, dictSet_dictSet]
    exact hmain
  · rw [Polynomial.subtract_term_eq_add, h2, Nat.xor_cancel_right, dictSet_dictSet]
    exact hmain

theorem C10_add_term_involutive_witness :
    (((Polynomial.mk [(2, 7)]).add_term 5 2).add_term 5 2).eq (Polynomial.mk [(2, 7)]) = true ∧
    (((Polynomial.mk [(2, 7)]).add_term 5 2).subtract_term 5 2).eq
      (Polynomial.mk [(2, 7)]) = true :=
  C10_add_term_involutive (Polynomial.mk [(2, 7)]) 5 2 (by decide) (by decide) (by decide)

end QR
